import Mathlib

/-!
# Renesas FS2012 flow sensor driver: embedding and verified properties

A shallow embedding of `renesas_fs2012_flow.c`.  The driver's three functions
(`RENESAS_FS2012_read_word`, `RENESAS_FS2012_read_raw`, `RENESAS_FS2012_probe`)
are functions on an explicit `World` (state of the per-instance mutex, state of
the adapter's segment lock, and the chronological trace of events).  A call
that blocks forever in a single calling context returns `none`.  Concurrent
calls are the same code cut at its kernel calls, run step by step under a
schedule (`Sys.run`).

What the hardware and the kernel decide (the outcome of the bus transfer, the
contents of uninitialised automatic variables, the byte order of the host) is
an explicit argument of the functions.
-/

namespace FS2012

/-! ## Kernel constants used by the driver -/

/-- Modelled from the spec: the kernel constant `IIO_VAL_INT` of `linux/iio/types.h`
(the header is not among the sources): the integer-valued result kind. -/
def IIO_VAL_INT : Int := 1

/-- Modelled from the spec: the kernel constant `IIO_VAL_FRACTIONAL` of
`linux/iio/types.h`: the fractional result kind. -/
def IIO_VAL_FRACTIONAL : Int := 10

/-- Modelled from the spec: the kernel's `enum iio_chan_info_enum` value
`IIO_CHAN_INFO_RAW`. -/
def IIO_CHAN_INFO_RAW : Int := 0

/-- Modelled from the spec: the kernel's `enum iio_chan_info_enum` value
`IIO_CHAN_INFO_SCALE`. -/
def IIO_CHAN_INFO_SCALE : Int := 2

/-- Modelled from the spec: the kernel's `enum iio_chan_type` value `IIO_VELOCITY`. -/
def IIO_VELOCITY : Nat := 23

/-- Modelled from the spec: the errno `EINVAL` (invalid argument). -/
def EINVAL : Int := 22

/-- Modelled from the spec: the errno `EOPNOTSUPP`. -/
def EOPNOTSUPP : Int := 95

/-- Modelled from the spec: the errno `ENOMEM`. -/
def ENOMEM : Int := 12

/-- Modelled from the spec: the message flag `I2C_M_RD` of `linux/i2c.h` (a read). -/
def I2C_M_RD : Nat := 1

/-- Modelled from the spec: the lock flag `I2C_LOCK_SEGMENT` of `linux/i2c.h`. -/
def I2C_LOCK_SEGMENT : Nat := 2

/-- The value of `sizeof(__be16)`: the requested read length in bytes. -/
def sizeof_be16 : Nat := 2

/-! ## Data model -/

/-- The fields of `struct i2c_msg` the driver sets (the buffer is passed apart). -/
structure i2c_msg where
  addr : Nat
  flags : Nat
  len : Nat
deriving DecidableEq, Repr

/-- The part of `struct i2c_client` the driver reads. -/
structure i2c_client where
  addr : Nat
deriving DecidableEq, Repr

/-- The driver's `struct RENESAS_FS2012_dev`; its `lock` lives in the `World`. -/
structure RENESAS_FS2012_dev where
  client : i2c_client
deriving DecidableEq, Repr

/-- Observable events, in the order the driver causes them. -/
inductive Event where
  | mutex_init
  | mutex_lock
  | mutex_unlock
  | i2c_lock_bus (flags : Nat)
  | i2c_transfer (msg : i2c_msg) (num : Nat)
  | i2c_unlock_bus (flags : Nat)
  | dev_err_read_word (ret : Int)
  | dev_err_adapter
deriving DecidableEq, Repr

/-- State threaded through the driver: the per-instance mutex, the adapter's
segment lock, and the trace of events so far (oldest first). -/
structure World where
  lock_held : Bool
  bus_held : Bool
  trace : List Event
deriving DecidableEq, Repr

/-- Outcome of one bus transfer, decided by the adapter: the status it returns
(negative errno, else the number of messages executed) and the bytes it stored
into the message buffer. -/
structure Xfer where
  ret : Int
  rx : List Nat
deriving DecidableEq, Repr

/-- Contents of the driver's uninitialised automatic variables at entry:
`char buf[5]` of `RENESAS_FS2012_read_word` and `u16 value` of
`RENESAS_FS2012_read_raw`. -/
structure Uninit where
  buf : List Nat
  value : Nat
deriving DecidableEq, Repr

/-- Byte order of the host CPU. -/
inductive Endian where
  | little
  | big
deriving DecidableEq, Repr

/-- What `RENESAS_FS2012_read_raw` hands back: its return value and the stores
it performed through `val` and `val2` (`none`: no store). -/
structure Reply where
  ret : Int
  val : Option Int
  val2 : Option Int
deriving DecidableEq, Repr

/-! ## Kernel primitives -/

/-- Append one event to the trace. -/
def World.log (w : World) (e : Event) : World :=
  ⟨w.lock_held, w.bus_held, w.trace ++ [e]⟩

/-- Kernel `mutex_init`: the mutex starts unlocked. -/
def mutex_init (w : World) : World :=
  ⟨false, w.bus_held, w.trace ++ [Event.mutex_init]⟩

/-- Kernel `mutex_lock`: takes a free mutex; on a held one the caller sleeps
until it is released, which a single calling context never sees (`none`). -/
def mutex_lock (w : World) : Option World :=
  if w.lock_held then none
  else some ⟨true, w.bus_held, w.trace ++ [Event.mutex_lock]⟩

/-- Kernel `mutex_unlock`: the mutex is free afterwards. -/
def mutex_unlock (w : World) : World :=
  ⟨false, w.bus_held, w.trace ++ [Event.mutex_unlock]⟩

/-- Kernel `i2c_lock_bus`: takes the adapter's lock, waiting while it is held. -/
def i2c_lock_bus (flags : Nat) (w : World) : Option World :=
  if w.bus_held then none
  else some ⟨w.lock_held, true, w.trace ++ [Event.i2c_lock_bus flags]⟩

/-- Kernel `i2c_unlock_bus`. -/
def i2c_unlock_bus (flags : Nat) (w : World) : World :=
  ⟨w.lock_held, false, w.trace ++ [Event.i2c_unlock_bus flags]⟩

/-- Bytes of a buffer after the adapter stored `rx` at its start, at most
`len` of them. -/
def store_rx (rx : List Nat) (len : Nat) (buf : List Nat) : List Nat :=
  rx.take len ++ buf.drop (rx.take len).length

/-- Kernel `__i2c_transfer` of `num` messages starting at `msg`: the adapter
decides the status and the received bytes. -/
def __i2c_transfer (x : Xfer) (msg : i2c_msg) (buf : List Nat) (num : Nat) (w : World) :
    Int × List Nat × World :=
  (x.ret, store_rx x.rx msg.len buf, w.log (Event.i2c_transfer msg num))

/-- The byte `buf[i]` as an unsigned value. -/
def byte_at (buf : List Nat) (i : Nat) : Nat :=
  buf.getD i 0 % 256

/-- The 16-bit object whose two bytes in memory are `b0` then `b1`, as the host
reads it: `memcpy(&be_val, &buf[0], sizeof(be_val))`. -/
def memcpy_u16 (host : Endian) (b0 b1 : Nat) : Nat :=
  match host with
  | Endian.little => b0 % 256 + 256 * (b1 % 256)
  | Endian.big => 256 * (b0 % 256) + b1 % 256

/-- Kernel `swab16`: exchange the two bytes of a 16-bit value. -/
def swab16 (x : Nat) : Nat :=
  ((x % 256) * 256 + (x / 256) % 256) % 65536

/-- Kernel `be16_to_cpu`: a byte swap on a little-endian host, the identity on
a big-endian one. -/
def be16_to_cpu (host : Endian) (x : Nat) : Nat :=
  match host with
  | Endian.little => swab16 x
  | Endian.big => x % 65536

/-! ## The driver -/

/-- Source `RENESAS_FS2012_read_word`: returns the status, the store through
`val` (if any) and the new world. -/
def RENESAS_FS2012_read_word (host : Endian) (dev : RENESAS_FS2012_dev) (x : Xfer)
    (u : Uninit) (w : World) : Option (Int × Option Nat × World) :=
  let client := dev.client
  let msg_resp : i2c_msg := ⟨client.addr, I2C_M_RD, sizeof_be16⟩
  match i2c_lock_bus I2C_LOCK_SEGMENT w with
  | none => none
  | some w1 =>
    match __i2c_transfer x msg_resp u.buf 1 w1 with
    | (ret, buf, w2) =>
      let w3 := i2c_unlock_bus I2C_LOCK_SEGMENT w2
      if ret < 0 then
        some (ret, none, w3.log (Event.dev_err_read_word ret))
      else
        let be_val := memcpy_u16 host (byte_at buf 0) (byte_at buf 1)
        some (0, some (be16_to_cpu host be_val), w3)

/-- Source `RENESAS_FS2012_read_raw`, for a channel of type `chan_type`. -/
def RENESAS_FS2012_read_raw (host : Endian) (dev : RENESAS_FS2012_dev) (x : Xfer)
    (u : Uninit) (chan_type : Nat) (mask : Int) (w : World) : Option (Reply × World) :=
  if mask = IIO_CHAN_INFO_RAW then
    if chan_type = IIO_VELOCITY then
      match mutex_lock w with
      | none => none
      | some w1 =>
        match RENESAS_FS2012_read_word host dev x u w1 with
        | none => none
        | some (ret, stored, w2) =>
          let value := stored.getD (u.value % 65536)
          let w3 := mutex_unlock w2
          if ret ≠ 0 then
            some (⟨ret, none, none⟩, w3)
          else
            some (⟨IIO_VAL_INT, some (Int.ofNat value), none⟩, w3)
    else
      some (⟨-EINVAL, none, none⟩, w)
  else if mask = IIO_CHAN_INFO_SCALE then
    if chan_type = IIO_VELOCITY then
      some (⟨IIO_VAL_FRACTIONAL, some 1, some 1000⟩, w)
    else
      some (⟨-EINVAL, none, none⟩, w)
  else
    some (⟨-EINVAL, none, none⟩, w)

/-- Source `RENESAS_FS2012_probe`.  The three kernel calls whose result the
function tests or returns are arguments: `functionality` for
`i2c_check_functionality`, `alloc_ok` for `devm_iio_device_alloc`, and
`register_ret` for `devm_iio_device_register`.  The assignments to the fields
of `iio_dev` and `i2c_set_clientdata` touch neither lock and add no event. -/
def RENESAS_FS2012_probe (functionality : Bool) (alloc_ok : Bool) (register_ret : Int)
    (w : World) : Int × World :=
  if !functionality then
    (-EOPNOTSUPP, w.log Event.dev_err_adapter)
  else if !alloc_ok then
    (-ENOMEM, w)
  else
    let w1 := mutex_init w
    let w2 := mutex_unlock w1
    (register_ret, w2)

/-! ## Trace observers -/

/-- Events of the bus: segment lock, transfer, segment unlock. -/
def Event.isBus : Event → Bool
  | Event.i2c_lock_bus _ => true
  | Event.i2c_transfer _ _ => true
  | Event.i2c_unlock_bus _ => true
  | _ => false

/-- Lock discipline of the per-instance mutex along a trace, from the state
`held`: no release while the mutex is not held. -/
def guard_disciplined : Bool → List Event → Bool
  | _, [] => true
  | _, Event.mutex_init :: es => guard_disciplined false es
  | _, Event.mutex_lock :: es => guard_disciplined true es
  | held, Event.mutex_unlock :: es => held && guard_disciplined false es
  | held, _ :: es => guard_disciplined held es

/-- Every bus event of the trace happens while the per-instance mutex is held,
starting from the state `held`. -/
def bus_under_guard : Bool → List Event → Bool
  | _, [] => true
  | _, Event.mutex_init :: es => bus_under_guard false es
  | _, Event.mutex_lock :: es => bus_under_guard true es
  | _, Event.mutex_unlock :: es => bus_under_guard false es
  | held, e :: es => (!e.isBus || held) && bus_under_guard held es

/-- The world of a freshly bound instance: both locks free, nothing happened. -/
def World.idle : World := ⟨false, false, []⟩

/-- The message `RENESAS_FS2012_read_word` builds for the instance `dev`. -/
def msg_of (dev : RENESAS_FS2012_dev) : i2c_msg :=
  ⟨dev.client.addr, I2C_M_RD, sizeof_be16⟩

/-- The three bus events of one call of `RENESAS_FS2012_read_word`. -/
def bus_events (dev : RENESAS_FS2012_dev) : List Event :=
  [Event.i2c_lock_bus I2C_LOCK_SEGMENT, Event.i2c_transfer (msg_of dev) 1,
    Event.i2c_unlock_bus I2C_LOCK_SEGMENT]

/-- The log line `RENESAS_FS2012_read_word` writes when the status is negative. -/
def err_events (ret : Int) : List Event :=
  if ret < 0 then [Event.dev_err_read_word ret] else []

/-- The word `RENESAS_FS2012_read_word` decodes from the buffer the transfer left. -/
def decoded (host : Endian) (x : Xfer) (u : Uninit) : Nat :=
  be16_to_cpu host (memcpy_u16 host (byte_at (store_rx x.rx sizeof_be16 u.buf) 0)
    (byte_at (store_rx x.rx sizeof_be16 u.buf) 1))

/-! ## Concurrent RAW queries

Several calling contexts run `RENESAS_FS2012_read_raw` (RAW, velocity channel)
on one instance.  Each call is cut at its five kernel calls (`mutex_lock`,
`i2c_lock_bus`, `__i2c_transfer`, `i2c_unlock_bus`, `mutex_unlock`); a
scheduler picks which context takes its next step.  A context whose next call
would sleep (`mutex_lock` or `i2c_lock_bus` on a held lock) cannot be picked. -/

/-- Where a calling context stands inside `RENESAS_FS2012_read_raw`. -/
inductive Pc where
  | start
  | locked
  | on_bus
  | transferred (ret : Int) (buf : List Nat)
  | off_bus (ret : Int) (stored : Option Nat)
  | done (r : Reply)
deriving DecidableEq, Repr

/-- One calling context: what the adapter will answer to its transfer, its
uninitialised automatic variables, and where it stands. -/
structure Ctx where
  x : Xfer
  u : Uninit
  pc : Pc
deriving DecidableEq, Repr

/-- The instance and every context calling into it. -/
structure Sys where
  w : World
  ctxs : List Ctx
deriving DecidableEq, Repr

/-- The next kernel call of a context, with the driver code up to the call
after it: line 79; line 44; line 46; lines 48 to 56; lines 81 to 87. -/
def Ctx.step (host : Endian) (dev : RENESAS_FS2012_dev) (c : Ctx) (w : World) :
    Option (Ctx × World) :=
  match c.pc with
  | Pc.start =>
    match mutex_lock w with
    | none => none
    | some w1 => some (⟨c.x, c.u, Pc.locked⟩, w1)
  | Pc.locked =>
    match i2c_lock_bus I2C_LOCK_SEGMENT w with
    | none => none
    | some w1 => some (⟨c.x, c.u, Pc.on_bus⟩, w1)
  | Pc.on_bus =>
    match __i2c_transfer c.x ⟨dev.client.addr, I2C_M_RD, sizeof_be16⟩ c.u.buf 1 w with
    | (ret, buf, w2) => some (⟨c.x, c.u, Pc.transferred ret buf⟩, w2)
  | Pc.transferred ret buf =>
    let w3 := i2c_unlock_bus I2C_LOCK_SEGMENT w
    if ret < 0 then
      some (⟨c.x, c.u, Pc.off_bus ret none⟩, w3.log (Event.dev_err_read_word ret))
    else
      let be_val := memcpy_u16 host (byte_at buf 0) (byte_at buf 1)
      some (⟨c.x, c.u, Pc.off_bus 0 (some (be16_to_cpu host be_val))⟩, w3)
  | Pc.off_bus ret stored =>
    let value := stored.getD (c.u.value % 65536)
    let w3 := mutex_unlock w
    if ret ≠ 0 then
      some (⟨c.x, c.u, Pc.done ⟨ret, none, none⟩⟩, w3)
    else
      some (⟨c.x, c.u, Pc.done ⟨IIO_VAL_INT, some (Int.ofNat value), none⟩⟩, w3)
  | Pc.done _ => none

/-- Context `i` takes its next step; `none` when there is no such context, when
it has returned, or when it sleeps on a held lock. -/
def Sys.step (host : Endian) (dev : RENESAS_FS2012_dev) (i : Nat) (s : Sys) : Option Sys :=
  match s.ctxs.get? i with
  | none => none
  | some c =>
    match c.step host dev s.w with
    | none => none
    | some (c2, w2) => some ⟨w2, s.ctxs.set i c2⟩

/-- Run a schedule: the list of the contexts picked, in order. -/
def Sys.run (host : Endian) (dev : RENESAS_FS2012_dev) : List Nat → Sys → Option Sys
  | [], s => some s
  | i :: sched, s =>
    match s.step host dev i with
    | none => none
    | some s2 => Sys.run host dev sched s2

/-- All contexts at the entry of their query, on a freshly bound instance. -/
def Sys.init (qs : List (Xfer × Uninit)) : Sys :=
  ⟨World.idle, qs.map fun q => ⟨q.1, q.2, Pc.start⟩⟩

/-- The context holds the per-instance mutex. -/
def Ctx.in_guard (c : Ctx) : Bool :=
  match c.pc with
  | Pc.locked => true
  | Pc.on_bus => true
  | Pc.transferred _ _ => true
  | Pc.off_bus _ _ => true
  | _ => false

/-- The context is inside its bus transaction: after `i2c_lock_bus`, before
`i2c_unlock_bus`. -/
def Ctx.in_bus (c : Ctx) : Bool :=
  match c.pc with
  | Pc.on_bus => true
  | Pc.transferred _ _ => true
  | _ => false

/-- The context has returned from its query. -/
def Ctx.returned (c : Ctx) : Bool :=
  match c.pc with
  | Pc.done _ => true
  | _ => false

/-- Steps a context still has to take before it returns. -/
def Ctx.todo (c : Ctx) : Nat :=
  match c.pc with
  | Pc.start => 5
  | Pc.locked => 4
  | Pc.on_bus => 3
  | Pc.transferred _ _ => 2
  | Pc.off_bus _ _ => 1
  | Pc.done _ => 0

/-- Steps all contexts together still have to take. -/
def Sys.todo (s : Sys) : Nat :=
  (s.ctxs.map Ctx.todo).sum

/-- The reply of the sequential `RENESAS_FS2012_read_raw` for the same transfer
outcome, on an instance nobody else uses. -/
def alone_reply (host : Endian) (dev : RENESAS_FS2012_dev) (x : Xfer) (u : Uninit) :
    Option Reply :=
  (RENESAS_FS2012_read_raw host dev x u IIO_VELOCITY IIO_CHAN_INFO_RAW World.idle).map Prod.fst

/-- Bus transactions along a trace do not overlap: starting outside a
transaction (`false`) or inside one (`true`), a segment lock comes only
outside, a transfer and a segment unlock only inside.  Gives the state after
the trace, `none` when the trace breaks the rule. -/
def bus_serial_step (st : Option Bool) (e : Event) : Option Bool :=
  match st, e with
  | none, _ => none
  | some false, Event.i2c_lock_bus _ => some true
  | some true, Event.i2c_lock_bus _ => none
  | some true, Event.i2c_transfer _ _ => some true
  | some false, Event.i2c_transfer _ _ => none
  | some true, Event.i2c_unlock_bus _ => some false
  | some false, Event.i2c_unlock_bus _ => none
  | some b, _ => some b

/-- The state `bus_serial_step` reaches along a whole trace. -/
def bus_serial (tr : List Event) : Option Bool :=
  tr.foldl bus_serial_step (some false)

/-- What a context has computed so far agrees with the transfer outcome it was
given: the status and buffer after the transfer, the result of
`RENESAS_FS2012_read_word`, and the reply, which is the one the sequential
`RENESAS_FS2012_read_raw` gives. -/
def Ctx.ok (host : Endian) (dev : RENESAS_FS2012_dev) (c : Ctx) : Prop :=
  match c.pc with
  | Pc.transferred ret buf => ret = c.x.ret ∧ buf = store_rx c.x.rx sizeof_be16 c.u.buf
  | Pc.off_bus ret stored =>
    (c.x.ret < 0 ∧ ret = c.x.ret ∧ stored = none) ∨
      (0 ≤ c.x.ret ∧ ret = 0 ∧ stored = some (decoded host c.x c.u))
  | Pc.done r => some r = alone_reply host dev c.x c.u
  | _ => True

/-- The reply of a context that has returned. -/
def Ctx.reply (c : Ctx) : Option Reply :=
  match c.pc with
  | Pc.done r => some r
  | _ => none

/-- What holds in every state concurrent RAW queries `qs` can reach. -/
structure Sys.Inv (host : Endian) (dev : RENESAS_FS2012_dev) (qs : List (Xfer × Uninit))
    (s : Sys) : Prop where
  inputs : s.ctxs.map (fun c => (c.x, c.u)) = qs
  guard : s.ctxs.countP Ctx.in_guard = if s.w.lock_held then 1 else 0
  bus : s.ctxs.countP Ctx.in_bus = if s.w.bus_held then 1 else 0
  ok : ∀ c ∈ s.ctxs, c.ok host dev
  serial : bus_serial s.w.trace = some s.w.bus_held

/-- Two concurrent RAW queries: one whose transfer delivers 0x03, 0xE8 and one
whose transfer fails with -5. -/
def two_queries : List (Xfer × Uninit) :=
  [(⟨1, [0x03, 0xE8]⟩, ⟨[9, 9, 9, 9, 9], 9⟩), (⟨-5, []⟩, ⟨[9, 9, 9, 9, 9], 9⟩)]

/-- The state after the second of `two_queries` ran its five steps and then
the first ran its five, on the instance at address 7. -/
def two_queries_final : Sys :=
  ⟨⟨false, false,
      [Event.mutex_lock, Event.i2c_lock_bus 2, Event.i2c_transfer ⟨7, 1, 2⟩ 1,
        Event.i2c_unlock_bus 2, Event.dev_err_read_word (-5), Event.mutex_unlock,
        Event.mutex_lock, Event.i2c_lock_bus 2, Event.i2c_transfer ⟨7, 1, 2⟩ 1,
        Event.i2c_unlock_bus 2, Event.mutex_unlock]⟩,
    [⟨⟨1, [0x03, 0xE8]⟩, ⟨[9, 9, 9, 9, 9], 9⟩, Pc.done ⟨1, some 1000, none⟩⟩,
      ⟨⟨-5, []⟩, ⟨[9, 9, 9, 9, 9], 9⟩, Pc.done ⟨-5, none, none⟩⟩]⟩

/-! ## Lemmas on the primitives -/

theorem be16_decode (host : Endian) (b0 b1 : Nat) :
    be16_to_cpu host (memcpy_u16 host b0 b1) = (b0 % 256) * 256 + b1 % 256 := by
  have ha : b0 % 256 < 256 := Nat.mod_lt _ (by decide)
  have hb : b1 % 256 < 256 := Nat.mod_lt _ (by decide)
  cases host
  · simp only [be16_to_cpu, memcpy_u16, swab16]
    generalize b0 % 256 = a at ha
    generalize b1 % 256 = b at hb
    have h1 : (a + 256 * b) % 256 = a := by omega
    have h2 : (a + 256 * b) / 256 = b := by omega
    rw [h1, h2]
    omega
  · simp only [be16_to_cpu, memcpy_u16]
    omega

theorem be16_decode_lt (host : Endian) (b0 b1 : Nat) :
    be16_to_cpu host (memcpy_u16 host b0 b1) < 65536 := by
  rw [be16_decode]
  omega

theorem decoded_lt (host : Endian) (x : Xfer) (u : Uninit) : decoded host x u < 65536 :=
  be16_decode_lt host _ _

theorem decoded_of_rx (host : Endian) (x : Xfer) (u : Uninit) (hi lo : Nat) (rest : List Nat)
    (hhi : hi < 256) (hlo : lo < 256) (hrx : x.rx = hi :: lo :: rest) :
    decoded host x u = hi * 256 + lo := by
  unfold decoded
  rw [be16_decode]
  simp [byte_at, store_rx, sizeof_be16, hrx, Nat.mod_eq_of_lt hhi, Nat.mod_eq_of_lt hlo]

theorem read_word_fail (host : Endian) (dev : RENESAS_FS2012_dev) (x : Xfer) (u : Uninit)
    (w : World) (hbus : w.bus_held = false) (hret : x.ret < 0) :
    RENESAS_FS2012_read_word host dev x u w =
      some (x.ret, none,
        ⟨w.lock_held, false, w.trace ++ (bus_events dev ++ [Event.dev_err_read_word x.ret])⟩) := by
  simp [RENESAS_FS2012_read_word, i2c_lock_bus, __i2c_transfer, i2c_unlock_bus, World.log,
    hbus, hret, bus_events, msg_of]

theorem read_word_ok (host : Endian) (dev : RENESAS_FS2012_dev) (x : Xfer) (u : Uninit)
    (w : World) (hbus : w.bus_held = false) (hret : 0 ≤ x.ret) :
    RENESAS_FS2012_read_word host dev x u w =
      some (0, some (decoded host x u), ⟨w.lock_held, false, w.trace ++ bus_events dev⟩) := by
  have h : ¬ x.ret < 0 := not_lt.mpr hret
  simp [RENESAS_FS2012_read_word, i2c_lock_bus, __i2c_transfer, i2c_unlock_bus, World.log,
    hbus, h, bus_events, msg_of, decoded]

theorem read_raw_fail (host : Endian) (dev : RENESAS_FS2012_dev) (x : Xfer) (u : Uninit)
    (w : World) (hlock : w.lock_held = false) (hbus : w.bus_held = false) (hret : x.ret < 0) :
    RENESAS_FS2012_read_raw host dev x u IIO_VELOCITY IIO_CHAN_INFO_RAW w =
      some (⟨x.ret, none, none⟩,
        ⟨false, false, w.trace ++ ([Event.mutex_lock] ++ bus_events dev ++
          [Event.dev_err_read_word x.ret] ++ [Event.mutex_unlock])⟩) := by
  have hne : x.ret ≠ 0 := ne_of_lt hret
  simp [RENESAS_FS2012_read_raw, mutex_lock, hlock,
    read_word_fail host dev x u ⟨true, w.bus_held, w.trace ++ [Event.mutex_lock]⟩ hbus hret,
    mutex_unlock, hne]

theorem read_raw_ok (host : Endian) (dev : RENESAS_FS2012_dev) (x : Xfer) (u : Uninit)
    (w : World) (hlock : w.lock_held = false) (hbus : w.bus_held = false) (hret : 0 ≤ x.ret) :
    RENESAS_FS2012_read_raw host dev x u IIO_VELOCITY IIO_CHAN_INFO_RAW w =
      some (⟨IIO_VAL_INT, some (Int.ofNat (decoded host x u)), none⟩,
        ⟨false, false, w.trace ++ ([Event.mutex_lock] ++ bus_events dev ++
          [Event.mutex_unlock])⟩) := by
  simp [RENESAS_FS2012_read_raw, mutex_lock, hlock,
    read_word_ok host dev x u ⟨true, w.bus_held, w.trace ++ [Event.mutex_lock]⟩ hbus hret,
    mutex_unlock]

/-- A RAW query that returns found the mutex and the bus free. -/
theorem read_raw_returns (host : Endian) (dev : RENESAS_FS2012_dev) (x : Xfer) (u : Uninit)
    (w : World) (r : Reply) (w2 : World)
    (h : RENESAS_FS2012_read_raw host dev x u IIO_VELOCITY IIO_CHAN_INFO_RAW w = some (r, w2)) :
    w.lock_held = false ∧ w.bus_held = false := by
  constructor
  · cases hl : w.lock_held
    · rfl
    · simp [RENESAS_FS2012_read_raw, mutex_lock, hl] at h
  · cases hb : w.bus_held
    · rfl
    · cases hl : w.lock_held <;>
        simp [RENESAS_FS2012_read_raw, mutex_lock, RENESAS_FS2012_read_word, i2c_lock_bus,
          hl, hb] at h

/-! ## Lemmas on lists of contexts -/

theorem sum_map_set {α : Type} (f : α → Nat) (l : List α) (i : Nat) (a b : α)
    (h : l.get? i = some a) : ((l.set i b).map f).sum + f a = (l.map f).sum + f b := by
  induction l generalizing i with
  | nil => simp at h
  | cons c l ih =>
    cases i with
    | zero =>
      simp only [List.get?_cons_zero, Option.some.injEq] at h
      subst h
      simp only [List.set_cons_zero, List.map_cons, List.sum_cons]
      omega
    | succ n =>
      simp only [List.get?_cons_succ] at h
      have := ih n h
      simp only [List.set_cons_succ, List.map_cons, List.sum_cons]
      omega

theorem countP_set {α : Type} (p : α → Bool) (l : List α) (i : Nat) (a b : α)
    (h : l.get? i = some a) :
    (l.set i b).countP p + (if p a then 1 else 0) = l.countP p + (if p b then 1 else 0) := by
  induction l generalizing i with
  | nil => simp at h
  | cons c l ih =>
    cases i with
    | zero =>
      simp only [List.get?_cons_zero, Option.some.injEq] at h
      subst h
      simp only [List.set_cons_zero, List.countP_cons]
      omega
    | succ n =>
      simp only [List.get?_cons_succ] at h
      have := ih n h
      simp only [List.set_cons_succ, List.countP_cons]
      omega

theorem map_set_same {α β : Type} (f : α → β) (l : List α) (i : Nat) (a b : α)
    (h : l.get? i = some a) (hf : f b = f a) : (l.set i b).map f = l.map f := by
  induction l generalizing i with
  | nil => simp at h
  | cons c l ih =>
    cases i with
    | zero =>
      simp only [List.get?_cons_zero, Option.some.injEq] at h
      subst h
      simp [hf]
    | succ n =>
      simp only [List.get?_cons_succ] at h
      simp [ih n h]

theorem sum_map_zero {α : Type} (f : α → Nat) (l : List α) (h : ∀ a ∈ l, f a = 0) :
    (l.map f).sum = 0 := by
  induction l with
  | nil => rfl
  | cons c l ih =>
    simp only [List.map_cons, List.sum_cons]
    rw [h c (List.mem_cons_self c l), ih (fun a ha => h a (List.mem_cons_of_mem c ha))]

theorem mem_of_get_some {α : Type} (l : List α) (i : Nat) (a : α) (h : l.get? i = some a) :
    a ∈ l := by
  induction l generalizing i with
  | nil => simp at h
  | cons c l ih =>
    cases i with
    | zero =>
      simp only [List.get?_cons_zero, Option.some.injEq] at h
      subst h
      exact List.mem_cons_self _ _
    | succ n =>
      simp only [List.get?_cons_succ] at h
      exact List.mem_cons_of_mem c (ih n h)

theorem get_some_of_mem {α : Type} (l : List α) (a : α) (h : a ∈ l) :
    ∃ i, l.get? i = some a := by
  induction l with
  | nil => simp at h
  | cons c l ih =>
    rcases List.mem_cons.mp h with h1 | h1
    · exact ⟨0, by simp [h1]⟩
    · obtain ⟨i, hi⟩ := ih h1
      exact ⟨i + 1, by simpa using hi⟩

theorem mem_set_cases {α : Type} (l : List α) (i : Nat) (a b : α) (h : a ∈ l.set i b) :
    a ∈ l ∨ a = b := by
  induction l generalizing i with
  | nil => simp at h
  | cons c l ih =>
    cases i with
    | zero =>
      simp only [List.set_cons_zero, List.mem_cons] at h
      rcases h with h | h
      · exact Or.inr h
      · exact Or.inl (List.mem_cons_of_mem c h)
    | succ n =>
      simp only [List.set_cons_succ, List.mem_cons] at h
      rcases h with h | h
      · exact Or.inl (by simp [h])
      · rcases ih n h with h2 | h2
        · exact Or.inl (List.mem_cons_of_mem c h2)
        · exact Or.inr h2

/-! ## Lemmas on concurrent RAW queries -/

theorem bus_serial_snoc (tr : List Event) (e : Event) :
    bus_serial (tr ++ [e]) = bus_serial_step (bus_serial tr) e := by
  simp [bus_serial, List.foldl_append]

theorem alone_reply_fail (host : Endian) (dev : RENESAS_FS2012_dev) (x : Xfer) (u : Uninit)
    (h : x.ret < 0) : alone_reply host dev x u = some ⟨x.ret, none, none⟩ := by
  unfold alone_reply
  rw [read_raw_fail host dev x u World.idle rfl rfl h]
  rfl

theorem alone_reply_ok (host : Endian) (dev : RENESAS_FS2012_dev) (x : Xfer) (u : Uninit)
    (h : 0 ≤ x.ret) :
    alone_reply host dev x u = some ⟨IIO_VAL_INT, some (Int.ofNat (decoded host x u)), none⟩ := by
  unfold alone_reply
  rw [read_raw_ok host dev x u World.idle rfl rfl h]
  rfl

theorem Ctx.step_spec (host : Endian) (dev : RENESAS_FS2012_dev) (c c2 : Ctx) (w w2 : World)
    (h : c.step host dev w = some (c2, w2))
    (hg : c.in_guard = true → w.lock_held = true)
    (hb : c.in_bus = true → w.bus_held = true)
    (hok : c.ok host dev) (hser : bus_serial w.trace = some w.bus_held) :
    c2.x = c.x ∧ c2.u = c.u ∧ c2.todo + 1 = c.todo ∧ c2.ok host dev ∧
    ((if w2.lock_held then 1 else 0) + (if c.in_guard then 1 else 0) =
      (if w.lock_held then 1 else 0) + (if c2.in_guard then 1 else 0)) ∧
    ((if w2.bus_held then 1 else 0) + (if c.in_bus then 1 else 0) =
      (if w.bus_held then 1 else 0) + (if c2.in_bus then 1 else 0)) ∧
    bus_serial w2.trace = some w2.bus_held := by
  obtain ⟨x, u, pc⟩ := c
  obtain ⟨lk, bs, tr⟩ := w
  simp only at hser
  cases pc with
  | start =>
    cases lk with
    | true => simp [Ctx.step, mutex_lock] at h
    | false =>
      simp only [Ctx.step, mutex_lock, Bool.false_eq_true, if_false, Option.some.injEq,
        Prod.mk.injEq] at h
      obtain ⟨rfl, rfl⟩ := h
      refine ⟨rfl, rfl, rfl, trivial, by simp [Ctx.in_guard], by simp [Ctx.in_bus], ?_⟩
      simp only [bus_serial_snoc, hser]
      cases bs <;> rfl
  | locked =>
    cases bs with
    | true => simp [Ctx.step, i2c_lock_bus] at h
    | false =>
      simp only [Ctx.step, i2c_lock_bus, Bool.false_eq_true, if_false, Option.some.injEq,
        Prod.mk.injEq] at h
      obtain ⟨rfl, rfl⟩ := h
      refine ⟨rfl, rfl, rfl, trivial, by simp [Ctx.in_guard], by simp [Ctx.in_bus], ?_⟩
      simp only [bus_serial_snoc, hser]
      rfl
  | on_bus =>
    have hbs : bs = true := hb rfl
    subst hbs
    simp only [Ctx.step, __i2c_transfer, World.log, Option.some.injEq, Prod.mk.injEq] at h
    obtain ⟨rfl, rfl⟩ := h
    refine ⟨rfl, rfl, rfl, ⟨rfl, rfl⟩, by simp [Ctx.in_guard], by simp [Ctx.in_bus], ?_⟩
    simp only [bus_serial_snoc, hser]
    rfl
  | transferred ret buf =>
    have hbs : bs = true := hb rfl
    subst hbs
    obtain ⟨hret, hbuf⟩ := hok
    simp only at hret hbuf
    by_cases hneg : ret < 0
    · simp only [Ctx.step, i2c_unlock_bus, World.log, hneg, if_true, Option.some.injEq,
        Prod.mk.injEq] at h
      obtain ⟨rfl, rfl⟩ := h
      refine ⟨rfl, rfl, rfl, Or.inl ⟨hret ▸ hneg, hret, rfl⟩, by simp [Ctx.in_guard],
        by simp [Ctx.in_bus], ?_⟩
      simp only [bus_serial_snoc, hser]
      rfl
    · simp only [Ctx.step, i2c_unlock_bus, World.log, hneg, if_false, Option.some.injEq,
        Prod.mk.injEq] at h
      obtain ⟨rfl, rfl⟩ := h
      refine ⟨rfl, rfl, rfl, Or.inr ⟨hret ▸ not_lt.mp hneg, rfl, ?_⟩, by simp [Ctx.in_guard],
        by simp [Ctx.in_bus], ?_⟩
      · simp only [decoded, hbuf]
      · simp only [bus_serial_snoc, hser]
        rfl
  | off_bus ret stored =>
    have hlk : lk = true := hg rfl
    subst hlk
    have hser2 : bus_serial (tr ++ [Event.mutex_unlock]) = some bs := by
      simp only [bus_serial_snoc, hser]
      cases bs <;> rfl
    rcases hok with ⟨hneg, hret, hst⟩ | ⟨hpos, hret, hst⟩
    · simp only at hneg hret hst
      have hne : ret ≠ 0 := by omega
      simp only [Ctx.step, mutex_unlock, hne, ne_eq, not_false_eq_true, if_true,
        Option.some.injEq, Prod.mk.injEq] at h
      obtain ⟨rfl, rfl⟩ := h
      refine ⟨rfl, rfl, rfl, ?_, by simp [Ctx.in_guard], by simp [Ctx.in_bus], hser2⟩
      show some _ = alone_reply host dev x u
      rw [alone_reply_fail host dev x u hneg, hret]
    · simp only at hpos hret hst
      subst hret hst
      simp only [Ctx.step, mutex_unlock, ne_eq, not_true_eq_false, if_false,
        Option.some.injEq, Prod.mk.injEq, Option.getD_some] at h
      obtain ⟨rfl, rfl⟩ := h
      refine ⟨rfl, rfl, rfl, ?_, by simp [Ctx.in_guard], by simp [Ctx.in_bus], hser2⟩
      show some _ = alone_reply host dev x u
      rw [alone_reply_ok host dev x u hpos]
  | done r => simp [Ctx.step] at h

theorem Sys.step_inv (host : Endian) (dev : RENESAS_FS2012_dev) (qs : List (Xfer × Uninit))
    (s s2 : Sys) (i : Nat) (hinv : s.Inv host dev qs) (h : s.step host dev i = some s2) :
    s2.Inv host dev qs ∧ s2.todo + 1 = s.todo := by
  unfold Sys.step at h
  cases hc : s.ctxs.get? i with
  | none =>
    rw [hc] at h
    simp at h
  | some c =>
    rw [hc] at h
    simp only at h
    cases hst : c.step host dev s.w with
    | none =>
      rw [hst] at h
      simp at h
    | some p =>
      obtain ⟨c2, w2⟩ := p
      rw [hst] at h
      simp only [Option.some.injEq] at h
      subst h
      have hmem := mem_of_get_some _ _ _ hc
      have hg : c.in_guard = true → s.w.lock_held = true := by
        intro hcg
        have hpos : 0 < s.ctxs.countP Ctx.in_guard := List.countP_pos_iff.mpr ⟨c, hmem, hcg⟩
        rw [hinv.guard] at hpos
        cases hl : s.w.lock_held
        · simp [hl] at hpos
        · rfl
      have hb : c.in_bus = true → s.w.bus_held = true := by
        intro hcb
        have hpos : 0 < s.ctxs.countP Ctx.in_bus := List.countP_pos_iff.mpr ⟨c, hmem, hcb⟩
        rw [hinv.bus] at hpos
        cases hl : s.w.bus_held
        · simp [hl] at hpos
        · rfl
      obtain ⟨hx, hu, htodo, hok, hgd, hbs, hser⟩ :=
        Ctx.step_spec host dev c c2 s.w w2 hst hg hb (hinv.ok c hmem) hinv.serial
      refine ⟨⟨?_, ?_, ?_, ?_, hser⟩, ?_⟩
      · have hsame : (fun c : Ctx => (c.x, c.u)) c2 = (fun c : Ctx => (c.x, c.u)) c := by
          simp [hx, hu]
        rw [map_set_same (fun c : Ctx => (c.x, c.u)) s.ctxs i c c2 hc hsame]
        exact hinv.inputs
      · have h1 := countP_set Ctx.in_guard s.ctxs i c c2 hc
        have h2 := hinv.guard
        simp only at h1 h2 ⊢
        omega
      · have h1 := countP_set Ctx.in_bus s.ctxs i c c2 hc
        have h2 := hinv.bus
        simp only at h1 h2 ⊢
        omega
      · intro d hd
        rcases mem_set_cases _ _ _ _ hd with hd | hd
        · exact hinv.ok d hd
        · rw [hd]
          exact hok
      · have h1 := sum_map_set Ctx.todo s.ctxs i c c2 hc
        simp only [Sys.todo]
        omega

theorem Sys.init_inv (host : Endian) (dev : RENESAS_FS2012_dev) (qs : List (Xfer × Uninit)) :
    (Sys.init qs).Inv host dev qs ∧ (Sys.init qs).todo = 5 * qs.length := by
  refine ⟨⟨?_, ?_, ?_, ?_, rfl⟩, ?_⟩
  · simp [Sys.init, Function.comp_def]
  · simp only [Sys.init, World.idle]
    induction qs with
    | nil => rfl
    | cons q qs ih => simp [List.countP_cons, Ctx.in_guard]
  · simp only [Sys.init, World.idle]
    induction qs with
    | nil => rfl
    | cons q qs ih => simp [List.countP_cons, Ctx.in_bus]
  · intro c hc
    simp only [Sys.init, List.mem_map] at hc
    obtain ⟨q, _, rfl⟩ := hc
    trivial
  · simp only [Sys.init, Sys.todo]
    induction qs with
    | nil => rfl
    | cons q qs ih =>
      simp only [List.map_cons, List.sum_cons, List.length_cons, ih, Ctx.todo]
      omega

theorem Sys.run_inv (host : Endian) (dev : RENESAS_FS2012_dev) (qs : List (Xfer × Uninit))
    (sched : List Nat) (s s2 : Sys) (hinv : s.Inv host dev qs)
    (h : Sys.run host dev sched s = some s2) :
    s2.Inv host dev qs ∧ s2.todo + sched.length = s.todo := by
  induction sched generalizing s with
  | nil =>
    simp only [Sys.run, Option.some.injEq] at h
    subst h
    exact ⟨hinv, rfl⟩
  | cons i sched ih =>
    simp only [Sys.run] at h
    cases hst : s.step host dev i with
    | none => simp [hst] at h
    | some s1 =>
      simp only [hst] at h
      obtain ⟨hinv1, ht1⟩ := Sys.step_inv host dev qs s s1 i hinv hst
      obtain ⟨hinv2, ht2⟩ := ih s1 hinv1 h
      refine ⟨hinv2, ?_⟩
      simp only [List.length_cons]
      omega

theorem Sys.step_isSome (host : Endian) (dev : RENESAS_FS2012_dev) (s : Sys) (i : Nat) (c : Ctx)
    (hc : s.ctxs.get? i = some c) (hst : (c.step host dev s.w).isSome = true) :
    (s.step host dev i).isSome = true := by
  unfold Sys.step
  rw [hc]
  simp only
  cases h : c.step host dev s.w with
  | none => simp [h] at hst
  | some p => rfl

theorem Ctx.step_awake (host : Endian) (dev : RENESAS_FS2012_dev) (c : Ctx) (w : World)
    (hg : c.in_guard = true) (hl : c.pc ≠ Pc.locked) : (c.step host dev w).isSome = true := by
  obtain ⟨x, u, pc⟩ := c
  cases pc with
  | start => simp [Ctx.in_guard] at hg
  | locked => exact absurd rfl hl
  | on_bus => rfl
  | transferred ret buf =>
    by_cases hneg : ret < 0 <;> simp [Ctx.step, hneg]
  | off_bus ret stored =>
    by_cases hz : ret = 0 <;> simp [Ctx.step, hz]
  | done r => simp [Ctx.in_guard] at hg

theorem Sys.enabled (host : Endian) (dev : RENESAS_FS2012_dev) (qs : List (Xfer × Uninit))
    (s : Sys) (hinv : s.Inv host dev qs) (htodo : 0 < s.todo) :
    ∃ i, (s.step host dev i).isSome = true := by
  by_cases hA : ∃ c ∈ s.ctxs, c.in_guard = true ∧ c.pc ≠ Pc.locked
  · obtain ⟨c, hmem, hg, hl⟩ := hA
    obtain ⟨i, hi⟩ := get_some_of_mem _ _ hmem
    exact ⟨i, Sys.step_isSome host dev s i c hi (Ctx.step_awake host dev c s.w hg hl)⟩
  · by_cases hB : ∃ c ∈ s.ctxs, c.pc = Pc.locked
    · obtain ⟨c, hmem, hpc⟩ := hB
      obtain ⟨i, hi⟩ := get_some_of_mem _ _ hmem
      have hnone : s.ctxs.countP Ctx.in_bus = 0 := by
        rw [List.countP_eq_zero]
        intro d hd hb
        apply hA
        refine ⟨d, hd, ?_, ?_⟩
        · obtain ⟨x, u, pc⟩ := d
          cases pc <;> simp_all [Ctx.in_bus, Ctx.in_guard]
        · intro hpc2
          simp [Ctx.in_bus, hpc2] at hb
      have hfree : s.w.bus_held = false := by
        have h2 := hinv.bus
        rw [hnone] at h2
        cases hl : s.w.bus_held
        · rfl
        · simp [hl] at h2
      refine ⟨i, Sys.step_isSome host dev s i c hi ?_⟩
      obtain ⟨x, u, pc⟩ := c
      simp only at hpc
      subst hpc
      simp [Ctx.step, i2c_lock_bus, hfree]
    · by_cases hC : ∃ c ∈ s.ctxs, c.pc = Pc.start
      · obtain ⟨c, hmem, hpc⟩ := hC
        obtain ⟨i, hi⟩ := get_some_of_mem _ _ hmem
        have hnone : s.ctxs.countP Ctx.in_guard = 0 := by
          rw [List.countP_eq_zero]
          intro d hd hg
          by_cases hl : d.pc = Pc.locked
          · exact hB ⟨d, hd, hl⟩
          · exact hA ⟨d, hd, hg, hl⟩
        have hfree : s.w.lock_held = false := by
          have h2 := hinv.guard
          rw [hnone] at h2
          cases hl : s.w.lock_held
          · rfl
          · simp [hl] at h2
        refine ⟨i, Sys.step_isSome host dev s i c hi ?_⟩
        obtain ⟨x, u, pc⟩ := c
        simp only at hpc
        subst hpc
        simp [Ctx.step, mutex_lock, hfree]
      · exfalso
        have hz : s.todo = 0 := by
          apply sum_map_zero
          intro d hd
          obtain ⟨x, u, pc⟩ := d
          cases pc with
          | start => exact absurd ⟨_, hd, rfl⟩ hC
          | locked => exact absurd ⟨_, hd, rfl⟩ hB
          | on_bus => exact absurd ⟨_, hd, rfl, by simp⟩ hA
          | transferred ret buf => exact absurd ⟨_, hd, rfl, by simp⟩ hA
          | off_bus ret stored => exact absurd ⟨_, hd, rfl, by simp⟩ hA
          | done r => rfl
        omega

theorem Sys.replies_of_done (host : Endian) (dev : RENESAS_FS2012_dev)
    (qs : List (Xfer × Uninit)) (s : Sys) (hinv : s.Inv host dev qs) (hz : s.todo = 0) :
    s.ctxs.map Ctx.reply = qs.map fun q => alone_reply host dev q.1 q.2 := by
  have hall : ∀ c ∈ s.ctxs, c.reply = alone_reply host dev c.x c.u := by
    intro c hc
    have hok := hinv.ok c hc
    have hc0 : c.todo = 0 := by
      by_contra hne
      have hpos : 0 < (s.ctxs.map Ctx.todo).sum := by
        have hle : c.todo ≤ (s.ctxs.map Ctx.todo).sum :=
          List.single_le_sum (fun _ _ => Nat.zero_le _) _ (List.mem_map_of_mem _ hc)
        omega
      simp only [Sys.todo] at hz
      omega
    obtain ⟨x, u, pc⟩ := c
    cases pc with
    | done r => exact hok
    | _ => simp [Ctx.todo] at hc0
  rw [← hinv.inputs, List.map_map]
  apply List.map_congr_left
  intro c hc
  exact hall c hc

theorem Sys.returned_of_done (s : Sys) (hz : s.todo = 0) :
    s.ctxs.all Ctx.returned = true := by
  rw [List.all_eq_true]
  intro c hc
  have hle : c.todo ≤ (s.ctxs.map Ctx.todo).sum :=
    List.single_le_sum (fun _ _ => Nat.zero_le _) _ (List.mem_map_of_mem _ hc)
  simp only [Sys.todo] at hz
  obtain ⟨x, u, pc⟩ := c
  cases pc with
  | done r => rfl
  | _ =>
    simp only [Ctx.todo] at hle
    omega

theorem Sys.completes (host : Endian) (dev : RENESAS_FS2012_dev) (qs : List (Xfer × Uninit))
    (n : Nat) (s : Sys) (hinv : s.Inv host dev qs) (hn : s.todo = n) :
    ∃ rest s3, Sys.run host dev rest s = some s3 ∧ s3.todo = 0 := by
  induction n generalizing s with
  | zero => exact ⟨[], s, rfl, hn⟩
  | succ n ih =>
    obtain ⟨i, hi⟩ := Sys.enabled host dev qs s hinv (by omega)
    cases hst : s.step host dev i with
    | none => simp [hst] at hi
    | some s1 =>
      obtain ⟨hinv1, ht1⟩ := Sys.step_inv host dev qs s s1 i hinv hst
      obtain ⟨rest, s3, hr, hz⟩ := ih s1 hinv1 (by omega)
      refine ⟨i :: rest, s3, ?_, hz⟩
      simp only [Sys.run, hst]
      exact hr

/-- One context alone on the instance: its five steps are the sequential
`RENESAS_FS2012_read_raw`, reply and world alike. -/
theorem Sys.run_alone (host : Endian) (dev : RENESAS_FS2012_dev) (x : Xfer) (u : Uninit)
    (w : World) (hlock : w.lock_held = false) (hbus : w.bus_held = false) :
    Sys.run host dev [0, 0, 0, 0, 0] ⟨w, [⟨x, u, Pc.start⟩]⟩ =
      (RENESAS_FS2012_read_raw host dev x u IIO_VELOCITY IIO_CHAN_INFO_RAW w).map
        fun p => ⟨p.2, [⟨x, u, Pc.done p.1⟩]⟩ := by
  obtain ⟨lk, bs, tr⟩ := w
  simp only at hlock hbus
  subst hlock hbus
  by_cases hret : x.ret < 0
  · have hne : x.ret ≠ 0 := by omega
    rw [read_raw_fail host dev x u ⟨false, false, tr⟩ rfl rfl hret]
    simp [Sys.run, Sys.step, Ctx.step, mutex_lock, i2c_lock_bus, __i2c_transfer,
      i2c_unlock_bus, mutex_unlock, World.log, hret, hne, bus_events, msg_of]
  · rw [read_raw_ok host dev x u ⟨false, false, tr⟩ rfl rfl (not_lt.mp hret)]
    simp [Sys.run, Sys.step, Ctx.step, mutex_lock, i2c_lock_bus, __i2c_transfer,
      i2c_unlock_bus, mutex_unlock, World.log, hret, bus_events, msg_of, decoded]

/-! ## The claims -/

/-- C1: when the transfer succeeds and delivers the bytes `hi` then `lo`, a RAW
query on the velocity channel returns `IIO_VAL_INT` and stores `hi * 256 + lo`
through `val`, on a little-endian and on a big-endian host alike. -/
theorem raw_query_decodes_big_endian (host : Endian) (dev : RENESAS_FS2012_dev) (x : Xfer)
    (u : Uninit) (w : World) (hi lo : Nat) (rest : List Nat)
    (hlock : w.lock_held = false) (hbus : w.bus_held = false)
    (hhi : hi < 256) (hlo : lo < 256) (hret : x.ret = 1) (hrx : x.rx = hi :: lo :: rest) :
    (RENESAS_FS2012_read_raw host dev x u IIO_VELOCITY IIO_CHAN_INFO_RAW w).map Prod.fst =
      some ⟨IIO_VAL_INT, some (Int.ofNat (hi * 256 + lo)), none⟩ := by
  have h0 : 0 ≤ x.ret := by omega
  rw [read_raw_ok host dev x u w hlock hbus h0, decoded_of_rx host x u hi lo rest hhi hlo hrx]
  rfl

/-- Witness of C1: the bytes 0x03, 0xE8 give 1000 on a little-endian host, and
the bytes 0x00, 0x00 give 0 on a big-endian host. -/
theorem raw_query_decodes_big_endian_witness :
    (RENESAS_FS2012_read_raw Endian.little ⟨⟨7⟩⟩ ⟨1, [0x03, 0xE8]⟩ ⟨[9, 9, 9, 9, 9], 9⟩
        IIO_VELOCITY IIO_CHAN_INFO_RAW World.idle).map Prod.fst =
      some ⟨IIO_VAL_INT, some 1000, none⟩ ∧
    (RENESAS_FS2012_read_raw Endian.big ⟨⟨7⟩⟩ ⟨1, [0x00, 0x00]⟩ ⟨[9, 9, 9, 9, 9], 9⟩
        IIO_VELOCITY IIO_CHAN_INFO_RAW World.idle).map Prod.fst =
      some ⟨IIO_VAL_INT, some 0, none⟩ :=
  ⟨raw_query_decodes_big_endian Endian.little ⟨⟨7⟩⟩ ⟨1, [0x03, 0xE8]⟩ ⟨[9, 9, 9, 9, 9], 9⟩
      World.idle 0x03 0xE8 [] rfl rfl (by decide) (by decide) rfl rfl,
    raw_query_decodes_big_endian Endian.big ⟨⟨7⟩⟩ ⟨1, [0x00, 0x00]⟩ ⟨[9, 9, 9, 9, 9], 9⟩
      World.idle 0x00 0x00 [] rfl rfl (by decide) (by decide) rfl rfl⟩

/-- C2: when the transfer reports a negative status, a RAW query on the
velocity channel returns that status unchanged, which is not `IIO_VAL_INT`, and
stores nothing through `val` or `val2`. -/
theorem raw_query_propagates_status (host : Endian) (dev : RENESAS_FS2012_dev) (x : Xfer)
    (u : Uninit) (w : World)
    (hlock : w.lock_held = false) (hbus : w.bus_held = false) (hneg : x.ret < 0) :
    (RENESAS_FS2012_read_raw host dev x u IIO_VELOCITY IIO_CHAN_INFO_RAW w).map Prod.fst =
      some ⟨x.ret, none, none⟩ ∧ x.ret ≠ IIO_VAL_INT := by
  constructor
  · rw [read_raw_fail host dev x u w hlock hbus hneg]
    rfl
  · simp only [IIO_VAL_INT]
    omega

/-- Witness of C2: the status -110 (timeout) with no byte received. -/
theorem raw_query_propagates_status_witness :
    (RENESAS_FS2012_read_raw Endian.little ⟨⟨7⟩⟩ ⟨-110, []⟩ ⟨[0, 0, 0, 0, 0], 0⟩
        IIO_VELOCITY IIO_CHAN_INFO_RAW World.idle).map Prod.fst =
      some ⟨-110, none, none⟩ ∧ (-110 : Int) ≠ IIO_VAL_INT :=
  raw_query_propagates_status Endian.little ⟨⟨7⟩⟩ ⟨-110, []⟩ ⟨[0, 0, 0, 0, 0], 0⟩
    World.idle rfl rfl (by decide)

/-- C3: for every pair of channel type and mask other than (velocity, RAW) and
(velocity, SCALE), the query returns `-EINVAL`, stores nothing, and leaves the
world as it was: no mutex event, no bus event, whatever the state of the locks. -/
theorem unsupported_query_einval (host : Endian) (dev : RENESAS_FS2012_dev) (x : Xfer)
    (u : Uninit) (w : World) (chan_type : Nat) (mask : Int)
    (hraw : (chan_type, mask) ≠ (IIO_VELOCITY, IIO_CHAN_INFO_RAW))
    (hscale : (chan_type, mask) ≠ (IIO_VELOCITY, IIO_CHAN_INFO_SCALE)) :
    RENESAS_FS2012_read_raw host dev x u chan_type mask w = some (⟨-EINVAL, none, none⟩, w) := by
  unfold RENESAS_FS2012_read_raw
  by_cases hm : mask = IIO_CHAN_INFO_RAW
  · have hc : chan_type ≠ IIO_VELOCITY := fun hc => hraw (by rw [hc, hm])
    simp [hm, hc]
  · by_cases hs : mask = IIO_CHAN_INFO_SCALE
    · have hc : chan_type ≠ IIO_VELOCITY := fun hc => hscale (by rw [hc, hs])
      simp [hs, hc, IIO_CHAN_INFO_SCALE, IIO_CHAN_INFO_RAW]
    · simp [hm, hs]

/-- Witness of C3: a RAW query on a channel of type 9 (temperature) while the
mutex and the bus are both held. -/
theorem unsupported_query_einval_witness :
    RENESAS_FS2012_read_raw Endian.big ⟨⟨7⟩⟩ ⟨1, [1, 2]⟩ ⟨[], 0⟩ 9 IIO_CHAN_INFO_RAW
        ⟨true, true, [Event.mutex_lock]⟩ =
      some (⟨-EINVAL, none, none⟩, ⟨true, true, [Event.mutex_lock]⟩) :=
  unsupported_query_einval Endian.big ⟨⟨7⟩⟩ ⟨1, [1, 2]⟩ ⟨[], 0⟩ ⟨true, true, [Event.mutex_lock]⟩
    9 IIO_CHAN_INFO_RAW (by decide) (by decide)

/-- C4: a SCALE query on the velocity channel returns `IIO_VAL_FRACTIONAL` with
1 stored through `val` and 1000 through `val2`, from every world (any lock
state, any history) and for any bus behaviour, and leaves the world as it was:
it takes no mutex and issues no transfer. -/
theorem scale_query_constant (host : Endian) (dev : RENESAS_FS2012_dev) (x : Xfer)
    (u : Uninit) (w : World) :
    RENESAS_FS2012_read_raw host dev x u IIO_VELOCITY IIO_CHAN_INFO_SCALE w =
      some (⟨IIO_VAL_FRACTIONAL, some 1, some 1000⟩, w) := by
  simp [RENESAS_FS2012_read_raw, IIO_CHAN_INFO_SCALE, IIO_CHAN_INFO_RAW]

/-- C5: a RAW query on the velocity channel issued with the mutex and the bus
free returns, and the events it adds to the trace are, in order: one
`mutex_lock`, the bus transaction (segment lock, transfer, segment unlock), the
error log line when the status is negative, one `mutex_unlock`.  So the mutex
is taken once before and released once after the transaction on every path,
every bus event happens under the mutex, the mutex is free at return, and a
RAW query issued right after it returns as well. -/
theorem raw_query_guard_bracket (host : Endian) (dev : RENESAS_FS2012_dev) (x : Xfer)
    (u : Uninit) (w : World) (hlock : w.lock_held = false) (hbus : w.bus_held = false) :
    ∃ r w2 evs,
      RENESAS_FS2012_read_raw host dev x u IIO_VELOCITY IIO_CHAN_INFO_RAW w = some (r, w2) ∧
      w2.trace = w.trace ++ evs ∧
      evs = [Event.mutex_lock] ++ bus_events dev ++ err_events x.ret ++ [Event.mutex_unlock] ∧
      evs.count Event.mutex_lock = 1 ∧ evs.count Event.mutex_unlock = 1 ∧
      guard_disciplined false evs = true ∧ bus_under_guard false evs = true ∧
      w2.lock_held = false ∧ w2.bus_held = false ∧
      ∀ (x2 : Xfer) (u2 : Uninit),
        (RENESAS_FS2012_read_raw host dev x2 u2 IIO_VELOCITY IIO_CHAN_INFO_RAW w2).isSome
          = true := by
  have hnext : ∀ (t : List Event) (x2 : Xfer) (u2 : Uninit),
      (RENESAS_FS2012_read_raw host dev x2 u2 IIO_VELOCITY IIO_CHAN_INFO_RAW
        ⟨false, false, t⟩).isSome = true := by
    intro t x2 u2
    by_cases h2 : x2.ret < 0
    · rw [read_raw_fail host dev x2 u2 ⟨false, false, t⟩ rfl rfl h2]
      rfl
    · rw [read_raw_ok host dev x2 u2 ⟨false, false, t⟩ rfl rfl (not_lt.mp h2)]
      rfl
  by_cases hret : x.ret < 0
  · refine ⟨_, _, _, read_raw_fail host dev x u w hlock hbus hret, rfl, ?_, ?_, ?_, ?_, ?_,
      rfl, rfl, fun x2 u2 => hnext _ x2 u2⟩
    · simp [err_events, hret]
    · simp [bus_events, List.count_cons]
    · simp [bus_events, List.count_cons]
    · simp [bus_events, guard_disciplined]
    · simp [bus_events, bus_under_guard, Event.isBus]
  · refine ⟨_, _, _, read_raw_ok host dev x u w hlock hbus (not_lt.mp hret), rfl, ?_, ?_, ?_,
      ?_, ?_, rfl, rfl, fun x2 u2 => hnext _ x2 u2⟩
    · simp [err_events, hret]
    · simp [bus_events, List.count_cons]
    · simp [bus_events, List.count_cons]
    · simp [bus_events, guard_disciplined]
    · simp [bus_events, bus_under_guard, Event.isBus]

/-- Witness of C5: a query whose transfer fails with -5, from the idle world. -/
theorem raw_query_guard_bracket_witness :
    ∃ r w2 evs,
      RENESAS_FS2012_read_raw Endian.little ⟨⟨7⟩⟩ ⟨-5, []⟩ ⟨[9, 9, 9, 9, 9], 9⟩ IIO_VELOCITY
        IIO_CHAN_INFO_RAW World.idle = some (r, w2) ∧
      w2.trace = World.idle.trace ++ evs ∧
      evs = [Event.mutex_lock] ++ bus_events ⟨⟨7⟩⟩ ++ err_events (-5) ++ [Event.mutex_unlock] ∧
      evs.count Event.mutex_lock = 1 ∧ evs.count Event.mutex_unlock = 1 ∧
      guard_disciplined false evs = true ∧ bus_under_guard false evs = true ∧
      w2.lock_held = false ∧ w2.bus_held = false ∧
      ∀ (x2 : Xfer) (u2 : Uninit),
        (RENESAS_FS2012_read_raw Endian.little ⟨⟨7⟩⟩ x2 u2 IIO_VELOCITY IIO_CHAN_INFO_RAW
          w2).isSome = true :=
  raw_query_guard_bracket Endian.little ⟨⟨7⟩⟩ ⟨-5, []⟩ ⟨[9, 9, 9, 9, 9], 9⟩ World.idle rfl rfl

/-- C6: `RENESAS_FS2012_read_word` does not keep failed transfers from the
caller: when the adapter reports 0 messages transferred and stores no byte,
the function returns 0 and stores through `val` the word made of the two
leading bytes of its uninitialised buffer (here 0xDE, 0xAD, giving 0xDEAD). -/
theorem read_word_zero_messages_reports_success :
    RENESAS_FS2012_read_word Endian.little ⟨⟨7⟩⟩ ⟨0, []⟩ ⟨[0xDE, 0xAD, 0, 0, 0], 0⟩ World.idle =
      some (0, some 0xDEAD, ⟨false, false, bus_events ⟨⟨7⟩⟩⟩) := by
  decide

/-- C7: a RAW query on the velocity channel issued with the mutex and the bus
free returns; its return value is never `IIO_VAL_FRACTIONAL` and nothing is
stored through `val2`; it returns `IIO_VAL_INT` exactly when the transfer
status is not negative, and then the value stored through `val` is the 16-bit
word `RENESAS_FS2012_read_word` decoded, as it is: the first byte of the buffer
times 256 plus the second, an integer between 0 and 65535. -/
theorem raw_query_value_range (host : Endian) (dev : RENESAS_FS2012_dev) (x : Xfer)
    (u : Uninit) (w : World) (hlock : w.lock_held = false) (hbus : w.bus_held = false) :
    ∃ r w2,
      RENESAS_FS2012_read_raw host dev x u IIO_VELOCITY IIO_CHAN_INFO_RAW w = some (r, w2) ∧
      r.ret ≠ IIO_VAL_FRACTIONAL ∧ r.val2 = none ∧
      (r.ret = IIO_VAL_INT ↔ 0 ≤ x.ret) ∧
      (r.ret = IIO_VAL_INT → ∃ v : Int, r.val = some v ∧ 0 ≤ v ∧ v ≤ 65535) ∧
      (r.ret = IIO_VAL_INT →
        r.val = some (Int.ofNat (decoded host x u)) ∧
        r.val = some (Int.ofNat (byte_at (store_rx x.rx sizeof_be16 u.buf) 0) * 256 +
          Int.ofNat (byte_at (store_rx x.rx sizeof_be16 u.buf) 1))) := by
  by_cases hret : x.ret < 0
  · have hno : ¬ x.ret = IIO_VAL_INT := by
      simp only [IIO_VAL_INT]
      omega
    refine ⟨_, _, read_raw_fail host dev x u w hlock hbus hret, ?_, rfl, ?_, ?_, ?_⟩
    · simp only [IIO_VAL_FRACTIONAL]
      omega
    · simp only [IIO_VAL_INT]
      omega
    · exact fun hk => absurd hk hno
    · exact fun hk => absurd hk hno
  · have h0 : 0 ≤ x.ret := not_lt.mp hret
    have hb0 : byte_at (store_rx x.rx sizeof_be16 u.buf) 0 % 256
        = byte_at (store_rx x.rx sizeof_be16 u.buf) 0 := by
      simp [byte_at]
    have hb1 : byte_at (store_rx x.rx sizeof_be16 u.buf) 1 % 256
        = byte_at (store_rx x.rx sizeof_be16 u.buf) 1 := by
      simp [byte_at]
    have hdec : decoded host x u = byte_at (store_rx x.rx sizeof_be16 u.buf) 0 * 256 +
        byte_at (store_rx x.rx sizeof_be16 u.buf) 1 := by
      unfold decoded
      rw [be16_decode, hb0, hb1]
    refine ⟨_, _, read_raw_ok host dev x u w hlock hbus h0, ?_, rfl, ?_,
      fun _ => ⟨Int.ofNat (decoded host x u), rfl, ?_, ?_⟩, fun _ => ⟨rfl, ?_⟩⟩
    · simp [IIO_VAL_INT, IIO_VAL_FRACTIONAL]
    · simp [h0]
    · exact Int.ofNat_nonneg _
    · have hlt := decoded_lt host x u
      simp only [Int.ofNat_eq_coe]
      omega
    · show some (Int.ofNat (decoded host x u)) = _
      rw [hdec]
      simp

/-- Witness of C7: the bytes 0x03, 0xE8 on a little-endian host: the stored
value is 1000, the whole word and not its low byte. -/
theorem raw_query_value_range_witness :
    decoded Endian.little ⟨1, [0x03, 0xE8]⟩ ⟨[9, 9, 9, 9, 9], 9⟩ = 1000 ∧
    ∃ r w2,
      RENESAS_FS2012_read_raw Endian.little ⟨⟨7⟩⟩ ⟨1, [0x03, 0xE8]⟩ ⟨[9, 9, 9, 9, 9], 9⟩
        IIO_VELOCITY IIO_CHAN_INFO_RAW World.idle = some (r, w2) ∧
      r.ret ≠ IIO_VAL_FRACTIONAL ∧ r.val2 = none ∧
      (r.ret = IIO_VAL_INT ↔ 0 ≤ (1 : Int)) ∧
      (r.ret = IIO_VAL_INT → ∃ v : Int, r.val = some v ∧ 0 ≤ v ∧ v ≤ 65535) ∧
      (r.ret = IIO_VAL_INT →
        r.val = some (Int.ofNat (decoded Endian.little ⟨1, [0x03, 0xE8]⟩ ⟨[9, 9, 9, 9, 9], 9⟩)) ∧
        r.val = some (Int.ofNat (byte_at (store_rx [0x03, 0xE8] sizeof_be16 [9, 9, 9, 9, 9]) 0)
          * 256 + Int.ofNat (byte_at (store_rx [0x03, 0xE8] sizeof_be16 [9, 9, 9, 9, 9]) 1))) :=
  ⟨by decide,
    raw_query_value_range Endian.little ⟨⟨7⟩⟩ ⟨1, [0x03, 0xE8]⟩ ⟨[9, 9, 9, 9, 9], 9⟩
      World.idle rfl rfl⟩

/-- C8: `RENESAS_FS2012_probe` releases a mutex nobody holds: on the path that
reaches registration, from any world and whatever registration returns, the
events it adds are `mutex_init` then `mutex_unlock`, with no `mutex_lock`
between them, so the trace of a probe from the idle world breaks the lock
discipline. -/
theorem probe_unlocks_unheld_mutex (register_ret : Int) (w : World) :
    (RENESAS_FS2012_probe true true register_ret w).2.trace =
      w.trace ++ [Event.mutex_init, Event.mutex_unlock] ∧
    (RENESAS_FS2012_probe true true register_ret w).1 = register_ret ∧
    guard_disciplined false (RENESAS_FS2012_probe true true register_ret World.idle).2.trace
      = false := by
  simp [RENESAS_FS2012_probe, mutex_init, mutex_unlock, guard_disciplined, World.idle]

/-- C9: for every number of contexts issuing RAW queries on one instance and
every schedule of their steps, in the state reached: at most one context is
inside its bus transaction and at most one holds the mutex; the bus events of
the trace form whole transactions one after the other; every step a scheduler
can pick lowers the number of steps left by one, which starts at five per
query; while steps are left some context can take one (no deadlock) and the
run can be carried on until none is left; and when none is left every query
has returned, each with the reply of the sequential `RENESAS_FS2012_read_raw`
for its transfer outcome (the value or the negative status). -/
theorem concurrent_raw_queries (host : Endian) (dev : RENESAS_FS2012_dev)
    (qs : List (Xfer × Uninit)) (sched : List Nat) (s : Sys)
    (hrun : Sys.run host dev sched (Sys.init qs) = some s) :
    s.ctxs.countP Ctx.in_bus ≤ 1 ∧
    s.ctxs.countP Ctx.in_guard ≤ 1 ∧
    bus_serial s.w.trace = some s.w.bus_held ∧
    s.ctxs.length = qs.length ∧
    s.todo + sched.length = 5 * qs.length ∧
    (∀ i s2, s.step host dev i = some s2 → s2.todo + 1 = s.todo) ∧
    (0 < s.todo → ∃ i, (s.step host dev i).isSome = true) ∧
    (∃ rest s3, Sys.run host dev rest s = some s3 ∧ s3.todo = 0) ∧
    (s.todo = 0 → s.ctxs.all Ctx.returned = true ∧
      s.ctxs.map Ctx.reply = qs.map fun q => alone_reply host dev q.1 q.2) := by
  obtain ⟨hinit, htodo⟩ := Sys.init_inv host dev qs
  obtain ⟨hinv, hlen⟩ := Sys.run_inv host dev qs sched (Sys.init qs) s hinit hrun
  refine ⟨?_, ?_, hinv.serial, ?_, by omega, ?_, Sys.enabled host dev qs s hinv,
    Sys.completes host dev qs s.todo s hinv rfl, ?_⟩
  · rw [hinv.bus]
    split <;> omega
  · rw [hinv.guard]
    split <;> omega
  · rw [← hinv.inputs, List.length_map]
  · intro i s2 hst
    exact (Sys.step_inv host dev qs s s2 i hinv hst).2
  · intro hz
    exact ⟨Sys.returned_of_done s hz, Sys.replies_of_done host dev qs s hinv hz⟩

/-- Witness of C9: two queries, the failing one scheduled first; the run of ten
steps ends in `two_queries_final`, where both have returned. -/
theorem concurrent_raw_queries_witness :
    Sys.run Endian.little ⟨⟨7⟩⟩ [1, 1, 1, 1, 1, 0, 0, 0, 0, 0] (Sys.init two_queries) =
      some two_queries_final ∧
    (two_queries_final.ctxs.countP Ctx.in_bus ≤ 1 ∧
    two_queries_final.ctxs.countP Ctx.in_guard ≤ 1 ∧
    bus_serial two_queries_final.w.trace = some two_queries_final.w.bus_held ∧
    two_queries_final.ctxs.length = two_queries.length ∧
    two_queries_final.todo + [1, 1, 1, 1, 1, 0, 0, 0, 0, 0].length = 5 * two_queries.length ∧
    (∀ i s2, two_queries_final.step Endian.little ⟨⟨7⟩⟩ i = some s2 →
      s2.todo + 1 = two_queries_final.todo) ∧
    (0 < two_queries_final.todo →
      ∃ i, (two_queries_final.step Endian.little ⟨⟨7⟩⟩ i).isSome = true) ∧
    (∃ rest s3, Sys.run Endian.little ⟨⟨7⟩⟩ rest two_queries_final = some s3 ∧ s3.todo = 0) ∧
    (two_queries_final.todo = 0 → two_queries_final.ctxs.all Ctx.returned = true ∧
      two_queries_final.ctxs.map Ctx.reply =
        two_queries.map fun q => alone_reply Endian.little ⟨⟨7⟩⟩ q.1 q.2)) :=
  ⟨by decide,
    concurrent_raw_queries Endian.little ⟨⟨7⟩⟩ two_queries [1, 1, 1, 1, 1, 0, 0, 0, 0, 0]
      two_queries_final (by decide)⟩

/-- C10: a call of `RENESAS_FS2012_read_word` with the bus free returns, and the
events it adds to the trace are the segment lock, one transfer of one message,
the segment unlock, followed only by the error log line when the status is
negative.  The message is a read (`I2C_M_RD`) of 2 bytes from the client's
address; its bus events are these three whatever the outcome. -/
theorem read_word_bus_events (host : Endian) (dev : RENESAS_FS2012_dev) (x : Xfer)
    (u : Uninit) (w : World) (hbus : w.bus_held = false) :
    ∃ ret stored w2 evs,
      RENESAS_FS2012_read_word host dev x u w = some (ret, stored, w2) ∧
      w2.trace = w.trace ++ evs ∧
      evs = [Event.i2c_lock_bus I2C_LOCK_SEGMENT,
        Event.i2c_transfer ⟨dev.client.addr, I2C_M_RD, 2⟩ 1,
        Event.i2c_unlock_bus I2C_LOCK_SEGMENT] ++ err_events x.ret ∧
      evs.filter Event.isBus = [Event.i2c_lock_bus I2C_LOCK_SEGMENT,
        Event.i2c_transfer ⟨dev.client.addr, I2C_M_RD, 2⟩ 1,
        Event.i2c_unlock_bus I2C_LOCK_SEGMENT] ∧
      w2.bus_held = false ∧ w2.lock_held = w.lock_held := by
  by_cases hret : x.ret < 0
  · refine ⟨_, _, _, _, read_word_fail host dev x u w hbus hret, rfl, ?_, ?_, rfl, rfl⟩
    · simp [bus_events, msg_of, sizeof_be16, err_events, hret]
    · simp [bus_events, msg_of, sizeof_be16, Event.isBus, List.filter]
  · refine ⟨_, _, _, _, read_word_ok host dev x u w hbus (not_lt.mp hret), rfl, ?_, ?_, rfl, rfl⟩
    · simp [bus_events, msg_of, sizeof_be16, err_events, hret]
    · simp [bus_events, msg_of, sizeof_be16, Event.isBus, List.filter]

/-- Witness of C10: a failed transfer (status -5) and the events of the call. -/
theorem read_word_bus_events_witness :
    ∃ ret stored w2 evs,
      RENESAS_FS2012_read_word Endian.big ⟨⟨7⟩⟩ ⟨-5, []⟩ ⟨[9, 9, 9, 9, 9], 9⟩ World.idle =
        some (ret, stored, w2) ∧
      w2.trace = World.idle.trace ++ evs ∧
      evs = [Event.i2c_lock_bus I2C_LOCK_SEGMENT,
        Event.i2c_transfer ⟨(⟨⟨7⟩⟩ : RENESAS_FS2012_dev).client.addr, I2C_M_RD, 2⟩ 1,
        Event.i2c_unlock_bus I2C_LOCK_SEGMENT] ++ err_events (-5) ∧
      evs.filter Event.isBus = [Event.i2c_lock_bus I2C_LOCK_SEGMENT,
        Event.i2c_transfer ⟨(⟨⟨7⟩⟩ : RENESAS_FS2012_dev).client.addr, I2C_M_RD, 2⟩ 1,
        Event.i2c_unlock_bus I2C_LOCK_SEGMENT] ∧
      w2.bus_held = false ∧ w2.lock_held = World.idle.lock_held :=
  read_word_bus_events Endian.big ⟨⟨7⟩⟩ ⟨-5, []⟩ ⟨[9, 9, 9, 9, 9], 9⟩ World.idle rfl

end FS2012
